import Mathlib

/-!
Verification of the JIRA release commit extractor
(`jira_release_commits.py`).

The development shallowly embeds the pure core of the script:

* the ticket-key matcher used inside `get_commit_ids_for_tickets`
  (the regex `(?<!\w)KEY(?!\d)` with `re.IGNORECASE`),
* the association scan `get_commit_ids_for_tickets`,
* the stable chronological sort `order_commits_chronologically`,
* the paginated fetch loop of `get_tasks_in_release`,
* the line structure produced by `generate_cherry_pick_script`.

Strings are modelled at the ASCII level (`Char.toLower`,
`Char.isAlpha`, `Char.isDigit`, matching the Python semantics for
ASCII text).  The ticket key is interpolated into the regex without
escaping; JIRA ticket keys consist of letters, digits and a hyphen,
none of which is a regex metacharacter outside a character class, so
the pattern matches the key literally and the embedding models this
literal-key behaviour.
-/

/-- A JIRA issue; only the `key` field is used by the core pipeline. -/
structure Issue where
  key : String
deriving DecidableEq, Repr

/-- One page of the JIRA search response: the `issues` list and the
server-reported `total` count. -/
structure Page where
  issues : List Issue
  total : Nat

/-- A git commit as consumed by the scan: hash, message and the
committed timestamp (`committed_date`, a Unix time). -/
structure Commit where
  hexsha : String
  message : String
  committed_date : Int
deriving DecidableEq, Repr

/-- The association record built by `get_commit_ids_for_tickets`. -/
structure Association where
  ticket_key : String
  commit_hash : String
  commit_date : Int
  commit_message : String
deriving DecidableEq, Repr

/-! ## The ticket matcher

`re.search` of the pattern `(?<!\w)KEY(?!\d)` with `re.IGNORECASE`,
for a literal ticket key KEY: some position of the message starts a
case-insensitive copy of the key, the previous character (if any) is
not a word character, and the following character (if any) is not a
digit. -/

/-- Python `\w` on ASCII: letter, digit or underscore. -/
def isWordChar (c : Char) : Bool :=
  c.isAlpha || c.isDigit || c == '_'

/-- The lookbehind `(?<!\w)`: succeeds at the start of the string
(`none`) or when the previous character is not a word character. -/
def boundaryOk : Option Char → Bool
  | none => true
  | some c => !(isWordChar c)

/-- Consume the key case-insensitively from the front of the message
suffix; return the remaining characters on success. -/
def matchKeyCI : List Char → List Char → Option (List Char)
  | [], rest => some rest
  | _ :: _, [] => none
  | k :: ks, c :: cs => if k.toLower == c.toLower then matchKeyCI ks cs else none

/-- The lookahead `(?!\d)` applied to the characters left after the
key: succeeds at end of string or when the next character is not a
digit; `none` means the key itself did not match. -/
def lookaheadOk : Option (List Char) → Bool
  | none => false
  | some [] => true
  | some (c :: _) => !(c.isDigit)

/-- `re.search` for the pattern `(?<!\w)KEY(?!\d)` over a literal key:
try every start position from left to right, remembering the previous
character for the lookbehind. -/
def reSearch (key : List Char) : List Char → Option Char → Bool
  | [], prev => boundaryOk prev && lookaheadOk (matchKeyCI key [])
  | c :: cs, prev =>
      (boundaryOk prev && lookaheadOk (matchKeyCI key (c :: cs)))
        || reSearch key cs (some c)

/-- The matcher applied per ticket key inside
`get_commit_ids_for_tickets` (line 154 of the source). -/
def matchesTicket (ticket_key commit_message : String) : Bool :=
  reSearch ticket_key.toList commit_message.toList none

/-! Spec-side reading of the matcher rule, following the words of the
specification: the key appears case-insensitively as a contiguous
substring, with no word character immediately before it and no digit
immediately after it. -/

/-- Case-insensitive equality of character lists. -/
def ciEq (a b : List Char) : Prop :=
  a.map Char.toLower = b.map Char.toLower

/-- No word character immediately before the occurrence: the part of
the message before the occurrence is empty or ends in a non-word
character. -/
def NoWordBefore (pre : List Char) : Prop :=
  ∀ c, pre.getLast? = some c → isWordChar c = false

/-- No digit immediately after the occurrence: the part of the message
after the occurrence is empty or starts with a non-digit. -/
def NoDigitAfter (post : List Char) : Prop :=
  ∀ c, post.head? = some c → c.isDigit = false

/-- Modelled from the spec wording: `key` appears case-insensitively
in `msg` as a contiguous substring with no word character immediately
before and no digit immediately after. -/
def specMatches (key msg : List Char) : Prop :=
  ∃ pre mid post, msg = pre ++ mid ++ post ∧ ciEq mid key ∧
    NoWordBefore pre ∧ NoDigitAfter post

/-- Characterization of `matchKeyCI`: it returns `some rest` exactly
when the message splits as a case-insensitive copy of the key followed
by `rest`. -/
theorem matchKeyCI_some_iff (key : List Char) :
    ∀ msg rest, matchKeyCI key msg = some rest ↔
      ∃ mid, msg = mid ++ rest ∧ ciEq mid key := by
  induction key with
  | nil =>
    intro msg rest
    simp only [matchKeyCI, Option.some.injEq]
    constructor
    · intro h
      exact ⟨[], by simp [h], by simp [ciEq]⟩
    · rintro ⟨mid, hm, hc⟩
      have hmid : mid = [] := by
        simpa [ciEq, List.map_eq_nil_iff] using hc
      simp [hmid] at hm
      exact hm
  | cons k ks ih =>
    intro msg rest
    cases msg with
    | nil =>
      simp only [matchKeyCI]
      constructor
      · intro h
        exact absurd h (by simp)
      · rintro ⟨mid, hm, hc⟩
        have hmid : mid = [] := by
          cases mid with
          | nil => rfl
          | cons d ds => simp at hm
        rw [hmid] at hc
        simp [ciEq] at hc
    | cons c cs =>
      simp only [matchKeyCI]
      by_cases hk : k.toLower == c.toLower
      · rw [if_pos hk]
        rw [ih cs rest]
        have hk' : k.toLower = c.toLower := by
          exact beq_iff_eq.mp hk
        constructor
        · rintro ⟨mid, hm, hc⟩
          refine ⟨c :: mid, by simp [hm], ?_⟩
          simp only [ciEq, List.map_cons] at hc ⊢
          rw [hc, hk']
        · rintro ⟨mid, hm, hc⟩
          cases mid with
          | nil =>
            simp [ciEq] at hc
          | cons d ds =>
            simp only [List.cons_append, List.cons.injEq] at hm
            simp only [ciEq, List.map_cons, List.cons.injEq] at hc
            exact ⟨ds, hm.2, hc.2⟩
      · rw [if_neg hk]
        constructor
        · intro h
          exact absurd h (by simp)
        · rintro ⟨mid, hm, hc⟩
          cases mid with
          | nil =>
            simp [ciEq] at hc
          | cons d ds =>
            simp only [List.cons_append, List.cons.injEq] at hm
            simp only [ciEq, List.map_cons, List.cons.injEq] at hc
            rw [← hm.1] at hc
            exact absurd (beq_iff_eq.mpr hc.1.symm) hk

/-- The lookahead test on an accepted remainder is exactly the
`NoDigitAfter` condition. -/
theorem lookaheadOk_some (rest : List Char) :
    lookaheadOk (some rest) = true ↔ NoDigitAfter rest := by
  cases rest with
  | nil => simp [lookaheadOk, NoDigitAfter]
  | cons c cs => simp [lookaheadOk, NoDigitAfter]

/-- The combined key-plus-lookahead test at a fixed position: the
suffix splits into a case-insensitive copy of the key and a remainder
not starting with a digit. -/
theorem lookahead_matchKey_iff (key msg : List Char) :
    lookaheadOk (matchKeyCI key msg) = true ↔
      ∃ mid post, msg = mid ++ post ∧ ciEq mid key ∧ NoDigitAfter post := by
  cases h : matchKeyCI key msg with
  | none =>
    simp only [lookaheadOk]
    constructor
    · intro hf
      exact absurd hf (by simp)
    · rintro ⟨mid, post, hm, hc, hd⟩
      have : matchKeyCI key msg = some post :=
        (matchKeyCI_some_iff key msg post).mpr ⟨mid, hm, hc⟩
      rw [h] at this
      exact absurd this (by simp)
  | some rest =>
    rw [lookaheadOk_some]
    rcases (matchKeyCI_some_iff key msg rest).mp h with ⟨mid, hm, hc⟩
    constructor
    · intro hd
      exact ⟨mid, rest, hm, hc, hd⟩
    · rintro ⟨mid', post', hm', hc', hd'⟩
      have : matchKeyCI key msg = some post' :=
        (matchKeyCI_some_iff key msg post').mpr ⟨mid', hm', hc'⟩
      rw [h] at this
      rw [Option.some.injEq] at this
      rw [this]
      exact hd'

/-- The effective character immediately before the candidate
occurrence: the last character of the local prefix if any, else the
character remembered from the already-scanned part. -/
def lastOr (prev : Option Char) (pre : List Char) : Option Char :=
  match pre.getLast? with
  | some c => some c
  | none => prev

theorem lastOr_nil (prev : Option Char) : lastOr prev [] = prev := rfl

theorem lastOr_cons (prev : Option Char) (c : Char) (pre : List Char) :
    lastOr prev (c :: pre) = lastOr (some c) pre := by
  cases pre with
  | nil => simp [lastOr]
  | cons d ds =>
    cases h : (d :: ds).getLast? with
    | none =>
      rw [List.getLast?_eq_none_iff] at h
      exact absurd h (by simp)
    | some e => simp [lastOr, List.getLast?_cons_cons, h]

/-- Generalized correctness of the left-to-right scan: a hit with
remembered previous character `prev` is exactly a decomposition whose
boundary test uses the last character before the occurrence. -/
theorem reSearch_iff (key : List Char) :
    ∀ msg prev, reSearch key msg prev = true ↔
      ∃ pre mid post, msg = pre ++ mid ++ post ∧ ciEq mid key ∧
        boundaryOk (lastOr prev pre) = true ∧ NoDigitAfter post := by
  intro msg
  induction msg with
  | nil =>
    intro prev
    simp only [reSearch, Bool.and_eq_true]
    constructor
    · rintro ⟨hb, hl⟩
      rcases (lookahead_matchKey_iff key []).mp hl with ⟨mid, post, hm, hc, hd⟩
      have hmid : mid = [] := by
        cases mid with
        | nil => rfl
        | cons d ds => simp at hm
      have hpost : post = [] := by
        rw [hmid] at hm
        simpa using hm.symm
      rw [hmid] at hc
      rw [hpost] at hd
      exact ⟨[], [], [], by simp, hc, by simpa [lastOr_nil] using hb, hd⟩
    · rintro ⟨pre, mid, post, hm, hc, hb, hd⟩
      have hpre : pre = [] := by
        cases pre with
        | nil => rfl
        | cons d ds => simp at hm
      have hmid : mid = [] := by
        rw [hpre] at hm
        cases mid with
        | nil => rfl
        | cons d ds => simp at hm
      rw [hpre, lastOr_nil] at hb
      rw [hpre, hmid] at hm
      have hpost : post = [] := by simpa using hm.symm
      rw [hmid] at hc
      rw [hpost] at hd
      exact ⟨hb, (lookahead_matchKey_iff key []).mpr ⟨[], [], rfl, hc, hd⟩⟩
  | cons c cs ih =>
    intro prev
    simp only [reSearch, Bool.or_eq_true, Bool.and_eq_true]
    rw [ih (some c)]
    constructor
    · rintro (⟨hb, hl⟩ | ⟨pre, mid, post, hm, hc, hbo, hd⟩)
      · rcases (lookahead_matchKey_iff key (c :: cs)).mp hl with ⟨mid, post, hm, hc, hd⟩
        exact ⟨[], mid, post, by simpa using hm, hc,
          by simpa [lastOr_nil] using hb, hd⟩
      · refine ⟨c :: pre, mid, post, by simp [hm], hc, ?_, hd⟩
        rwa [lastOr_cons]
    · rintro ⟨pre, mid, post, hm, hc, hbo, hd⟩
      cases pre with
      | nil =>
        left
        rw [lastOr_nil] at hbo
        exact ⟨hbo, (lookahead_matchKey_iff key (c :: cs)).mpr
          ⟨mid, post, by simpa using hm, hc, hd⟩⟩
      | cons d pre' =>
        right
        simp only [List.cons_append, List.cons.injEq] at hm
        rw [lastOr_cons] at hbo
        rw [← hm.1] at hbo
        exact ⟨pre', mid, post, hm.2, hc, hbo, hd⟩

/-- The boundary test seen from the start of the message is exactly
the `NoWordBefore` condition on the scanned prefix. -/
theorem boundaryOk_lastOr_none (pre : List Char) :
    boundaryOk (lastOr none pre) = true ↔ NoWordBefore pre := by
  cases h : pre.getLast? with
  | none =>
    simp only [lastOr, h, boundaryOk, NoWordBefore]
    simp [h]
  | some c =>
    simp only [lastOr, h, boundaryOk, NoWordBefore]
    simp [h]

/-- C1: the matcher returns true exactly when the ticket key appears
case-insensitively in the commit message as a contiguous substring
with no word character (letter, digit, underscore) immediately before
it and no digit immediately after it. -/
theorem matcher_iff_spec (ticket_key commit_message : String) :
    matchesTicket ticket_key commit_message = true ↔
      specMatches ticket_key.toList commit_message.toList := by
  unfold matchesTicket specMatches
  rw [reSearch_iff]
  constructor
  · rintro ⟨pre, mid, post, hm, hc, hb, hd⟩
    exact ⟨pre, mid, post, hm, hc, (boundaryOk_lastOr_none pre).mp hb, hd⟩
  · rintro ⟨pre, mid, post, hm, hc, hb, hd⟩
    exact ⟨pre, mid, post, hm, hc, (boundaryOk_lastOr_none pre).mpr hb, hd⟩

/-- Test vector strings for the matcher. -/
def keyPROJ1 : String := "PROJ-1"

def keyPROJ12 : String := "PROJ-12"

def msgFixes12 : String := "fixes PROJ-12"

def msgFixes12Today : String := "fixes PROJ-12 today"

def msgXProj12 : String := "xPROJ-12"

/-- C6: the matcher satisfies the three concrete test vectors:
`PROJ-1` against `fixes PROJ-12` is false (digit follows), `PROJ-12`
against `fixes PROJ-12 today` is true, and `PROJ-12` against
`xPROJ-12` is false (preceding word character). -/
theorem matcher_test_vectors :
    matchesTicket keyPROJ1 msgFixes12 = false ∧
    matchesTicket keyPROJ12 msgFixes12Today = true ∧
    matchesTicket keyPROJ12 msgXProj12 = false := by
  decide

/-! ## The association scan (`get_commit_ids_for_tickets`)

The Python loop walks every commit, and for each commit every ticket
key; on a regex hit it appends an association and records the commit
hash in `unique_commit_hashes`, unless the hash was already recorded
(the `continue` skips to the next ticket key, so after the first hit
all later hits on the same commit are skipped). -/

/-- Python `str.strip()` at the ASCII level: drop whitespace from both
ends (applied to the stored `commit_message`). -/
def pyStrip (s : String) : String :=
  ⟨((s.toList.dropWhile Char.isWhitespace).reverse.dropWhile
      Char.isWhitespace).reverse⟩

/-- The association record appended for a hit of `ticket_key` on
commit `c`. -/
def assocOf (k : String) (c : Commit) : Association :=
  { ticket_key := k
    commit_hash := c.hexsha
    commit_date := c.committed_date
    commit_message := pyStrip c.message }

/-- The inner `for ticket_key in ticket_keys` loop for one commit,
threading the accumulated associations and the seen-hash set
(modelled as a list with membership). -/
def scanKeys (c : Commit) :
    List String → List Association × List String →
      List Association × List String
  | [], st => st
  | ticket_key :: rest, (commits, seen) =>
    if matchesTicket ticket_key c.message then
      if c.hexsha ∈ seen then
        scanKeys c rest (commits, seen)
      else
        scanKeys c rest (commits ++ [assocOf ticket_key c], seen ++ [c.hexsha])
    else
      scanKeys c rest (commits, seen)

/-- `get_commit_ids_for_tickets`: extract the ticket keys from the
issues, then scan every commit of the history against every key. -/
def get_commit_ids_for_tickets (issues : List Issue)
    (all_commits : List Commit) : List Association :=
  (all_commits.foldl (fun st c => scanKeys c (issues.map Issue.key) st)
    ([], [])).1

/-- Once the hash of the commit is recorded, the inner loop changes
nothing. -/
theorem scanKeys_seen (c : Commit) (ks : List String)
    (commits : List Association) (seen : List String)
    (h : c.hexsha ∈ seen) :
    scanKeys c ks (commits, seen) = (commits, seen) := by
  induction ks with
  | nil => rfl
  | cons k rest ih =>
    simp only [scanKeys]
    by_cases hm : matchesTicket k c.message
    · rw [if_pos hm, if_pos h, ih]
    · rw [if_neg hm, ih]

/-- Characterization of the inner loop on an unseen commit: the first
matching key (in key order) appends exactly one association and
records the hash; no match leaves the state unchanged. -/
theorem scanKeys_not_seen (c : Commit) (ks : List String)
    (commits : List Association) (seen : List String)
    (h : c.hexsha ∉ seen) :
    scanKeys c ks (commits, seen) =
      match ks.find? (fun k => matchesTicket k c.message) with
      | none => (commits, seen)
      | some k => (commits ++ [assocOf k c], seen ++ [c.hexsha]) := by
  induction ks with
  | nil => rfl
  | cons k rest ih =>
    simp only [scanKeys]
    by_cases hm : matchesTicket k c.message
    · rw [if_pos hm, if_neg h]
      rw [scanKeys_seen c rest _ _ (by simp)]
      simp [List.find?, hm]
    · rw [if_neg hm, ih]
      simp [List.find?, hm]

/-- The invariant carried over the outer fold: distinct hashes, every
recorded hash in the seen set, and every association produced by a
commit of the history with the first matching key. -/
def ScanInv (keys : List String) (L : List Commit)
    (st : List Association × List String) : Prop :=
  (st.1.map Association.commit_hash).Nodup ∧
  (∀ a ∈ st.1, a.commit_hash ∈ st.2) ∧
  (∀ a ∈ st.1, ∃ c ∈ L, a.commit_hash = c.hexsha ∧
    a.commit_date = c.committed_date ∧
    a.commit_message = pyStrip c.message ∧
    keys.find? (fun k => matchesTicket k c.message) = some a.ticket_key)

/-- One step of the outer fold preserves the invariant. -/
theorem scanKeys_preserves_inv (keys : List String) (L : List Commit)
    (c : Commit) (hc : c ∈ L) (st : List Association × List String)
    (hinv : ScanInv keys L st) :
    ScanInv keys L (scanKeys c keys st) := by
  obtain ⟨commits, seen⟩ := st
  obtain ⟨h1, h2, h3⟩ := hinv
  by_cases hseen : c.hexsha ∈ seen
  · rw [scanKeys_seen c keys commits seen hseen]
    exact ⟨h1, h2, h3⟩
  · rw [scanKeys_not_seen c keys commits seen hseen]
    cases hf : keys.find? (fun k => matchesTicket k c.message) with
    | none => exact ⟨h1, h2, h3⟩
    | some k =>
      refine ⟨?_, ?_, ?_⟩
      · simp only [List.map_append, List.map_cons, List.map_nil]
        rw [List.nodup_append]
        refine ⟨h1, by simp, ?_⟩
        intro x hx
        simp only [List.mem_singleton]
        intro hxc
        rcases List.mem_map.mp hx with ⟨a, ha, hax⟩
        rw [hxc] at hax
        have hac : a.commit_hash = c.hexsha := by
          simpa [assocOf] using hax
        exact hseen (hac ▸ h2 a ha)
      · intro a ha
        rcases List.mem_append.mp ha with ha' | ha'
        · exact List.mem_append_left _ (h2 a ha')
        · simp only [List.mem_singleton] at ha'
          rw [ha']
          simp [assocOf]
      · intro a ha
        rcases List.mem_append.mp ha with ha' | ha'
        · exact h3 a ha'
        · simp only [List.mem_singleton] at ha'
          rw [ha']
          exact ⟨c, hc, rfl, rfl, rfl, hf⟩

/-- The fold over any suffix of the history preserves the invariant. -/
theorem foldl_scanKeys_inv (keys : List String) (L : List Commit) :
    ∀ (cs : List Commit), (∀ c ∈ cs, c ∈ L) →
      ∀ st, ScanInv keys L st →
        ScanInv keys L (cs.foldl (fun st c => scanKeys c keys st) st) := by
  intro cs
  induction cs with
  | nil => intro _ st h; exact h
  | cons c cs ih =>
    intro hsub st h
    simp only [List.foldl_cons]
    exact ih (fun x hx => hsub x (List.mem_cons_of_mem c hx))
      (scanKeys c keys st)
      (scanKeys_preserves_inv keys L c (hsub c (List.mem_cons_self c cs)) st h)

/-- C2: the output of `get_commit_ids_for_tickets` has at most one
association per distinct commit hash, and every association carries
the first ticket key (in the order the tickets were returned by the
fetch step) that matches the commit message, together with the commit
hash, timestamp and stripped message of a commit of the history. -/
theorem get_commit_ids_spec (issues : List Issue)
    (all_commits : List Commit) :
    ((get_commit_ids_for_tickets issues all_commits).map
        Association.commit_hash).Nodup ∧
    (∀ a ∈ get_commit_ids_for_tickets issues all_commits,
      ∃ c ∈ all_commits, a.commit_hash = c.hexsha ∧
        a.commit_date = c.committed_date ∧
        a.commit_message = pyStrip c.message ∧
        (issues.map Issue.key).find?
          (fun k => matchesTicket k c.message) = some a.ticket_key) := by
  have h := foldl_scanKeys_inv (issues.map Issue.key) all_commits
    all_commits (fun _ hx => hx) ([], [])
    ⟨by simp, by simp, by simp⟩
  exact ⟨h.1, h.2.2⟩

/-! ## The chronological order (`order_commits_chronologically`)

Python `sorted` keyed on the commit_date field is a stable
sort by the timestamp; any stable sort by a total preorder produces
the same output, so it is embedded as a stable merge sort keyed on
`commit_date`. -/

/-- The comparison used by the sort: ascending commit timestamp. -/
def commitLe (a b : Association) : Bool :=
  decide (a.commit_date ≤ b.commit_date)

/-- `order_commits_chronologically`: stable sort of the associations
by commit timestamp, ascending. -/
def order_commits_chronologically (commits : List Association) :
    List Association :=
  commits.mergeSort commitLe

theorem commitLe_trans (a b c : Association) :
    commitLe a b → commitLe b c → commitLe a c := by
  simp only [commitLe, decide_eq_true_eq]
  omega

theorem commitLe_total (a b : Association) :
    commitLe a b || commitLe b a := by
  simp only [commitLe, Bool.or_eq_true, decide_eq_true_eq]
  omega

/-- Elements filtered to a single timestamp are pairwise ordered. -/
theorem pairwise_commitLe_filter (t : Int) (l : List Association) :
    (l.filter (fun a => a.commit_date == t)).Pairwise
      (fun a b => commitLe a b = true) := by
  induction l with
  | nil => simp
  | cons a l ih =>
    by_cases h : a.commit_date == t
    · rw [List.filter_cons_of_pos (by simpa using h)]
      refine List.Pairwise.cons ?_ ih
      intro b hb
      have hb' := List.of_mem_filter hb
      simp only [beq_iff_eq] at h hb'
      simp [commitLe, h, hb']
    · rw [List.filter_cons_of_neg (by simpa using h)]
      exact ih

/-- C3: the chronological order is a permutation of its input, sorted
by commit timestamp ascending; it is stable (for every timestamp the
associations carrying it keep their input order), and any association
with a strictly smaller timestamp appears strictly earlier. -/
theorem order_commits_spec (l : List Association) :
    (order_commits_chronologically l).Perm l ∧
    (order_commits_chronologically l).Pairwise
      (fun a b => a.commit_date ≤ b.commit_date) ∧
    (∀ t : Int,
      (order_commits_chronologically l).filter
          (fun a => a.commit_date == t) =
        l.filter (fun a => a.commit_date == t)) ∧
    (∀ (i j : Nat) (hi : i < (order_commits_chronologically l).length)
        (hj : j < (order_commits_chronologically l).length),
      ((order_commits_chronologically l).get ⟨i, hi⟩).commit_date <
          ((order_commits_chronologically l).get ⟨j, hj⟩).commit_date →
        i < j) := by
  have hperm : (order_commits_chronologically l).Perm l :=
    List.mergeSort_perm l commitLe
  have hsortedB : (order_commits_chronologically l).Pairwise
      (fun a b => commitLe a b = true) :=
    List.sorted_mergeSort commitLe_trans commitLe_total l
  have hsorted : (order_commits_chronologically l).Pairwise
      (fun a b => a.commit_date ≤ b.commit_date) := by
    refine hsortedB.imp ?_
    intro a b h
    simpa [commitLe] using h
  refine ⟨hperm, hsorted, ?_, ?_⟩
  · intro t
    set p : Association → Bool := fun a => a.commit_date == t with hp
    have hsub : List.Sublist (l.filter p) l := List.filter_sublist l
    have hpair : (l.filter p).Pairwise (fun a b => commitLe a b = true) :=
      pairwise_commitLe_filter t l
    have hsub2 : List.Sublist (l.filter p) (l.mergeSort commitLe) :=
      List.sublist_mergeSort commitLe_trans commitLe_total hpair hsub
    have hself : (l.filter p).filter p = l.filter p := by
      rw [List.filter_eq_self]
      intro a ha
      exact List.of_mem_filter ha
    have hsub3 : List.Sublist (l.filter p)
        ((l.mergeSort commitLe).filter p) := by
      rw [← hself]
      exact List.Sublist.filter p hsub2
    have hlen : ((l.mergeSort commitLe).filter p).length =
        (l.filter p).length :=
      (hperm.filter p).length_eq
    exact (hsub3.eq_of_length hlen.symm).symm
  · intro i j hi hj hlt
    by_contra hij
    push_neg at hij
    rcases Nat.lt_or_ge j i with hji | hji
    · have := (List.pairwise_iff_get.mp hsorted) ⟨j, hj⟩ ⟨i, hi⟩ hji
      omega
    · have hij' : i = j := by omega
      subst hij'
      exact absurd hlt (lt_irrefl _)

/-! ## The paginated fetch (`get_tasks_in_release`)

The JIRA server is modelled as a function from the `startAt` offset to
the page it returns (`issues` plus the reported `total`).  The Python
loop performs one search request per iteration; the embedding returns
the accumulated issues together with the number of search requests
performed.  `max_results` is hard-coded to 100 as in the source.  The
`total` variable is assigned from the first response only, so the
remaining iterations are modelled by `fetchPages` with a fixed
`total`. -/

/-- The pagination loop after the first iteration: request the page at
`startAt` while `startAt < total`; stop on an empty page or a short
page (fewer than `maxResults` issues), else accumulate and advance by
the page length. -/
def fetchPages (server : Nat → Page) (maxResults total startAt : Nat)
    (acc : List Issue) (reqs : Nat) : List Issue × Nat :=
  if h0 : startAt < total then
    if he : ((server startAt).issues).isEmpty then (acc, reqs + 1)
    else if ((server startAt).issues).length < maxResults then
      (acc ++ (server startAt).issues, reqs + 1)
    else
      fetchPages server maxResults total
        (startAt + ((server startAt).issues).length)
        (acc ++ (server startAt).issues) (reqs + 1)
  else (acc, reqs)
termination_by total - startAt
decreasing_by
  have hpos : 0 < ((server startAt).issues).length := by
    cases hl : (server startAt).issues with
    | nil => rw [hl] at he; simp at he
    | cons x xs => simp
  omega

/-- `get_tasks_in_release` after the release name resolved: the first
loop iteration runs unconditionally (`total` is still `None`), fixes
`total` from the first response, and the loop continues via
`fetchPages`.  Returns the accumulated issues and the number of search
requests. -/
def get_tasks_in_release (server : Nat → Page) : List Issue × Nat :=
  if ((server 0).issues).isEmpty then ([], 1)
  else if ((server 0).issues).length < 100 then ((server 0).issues, 1)
  else
    fetchPages server 100 (server 0).total ((server 0).issues).length
      ((server 0).issues) 1

/-- Fuelled counterpart of `fetchPages`: `none` means the fuel ran out
before the loop stopped.  Used to state termination of the loop. -/
def fetchPagesFuel (server : Nat → Page) (maxResults : Nat) :
    Nat → Nat → Nat → List Issue → Nat → Option (List Issue × Nat)
  | 0, _, _, _, _ => none
  | fuel + 1, total, startAt, acc, reqs =>
    if startAt < total then
      if ((server startAt).issues).isEmpty then some (acc, reqs + 1)
      else if ((server startAt).issues).length < maxResults then
        some (acc ++ (server startAt).issues, reqs + 1)
      else
        fetchPagesFuel server maxResults fuel total
          (startAt + ((server startAt).issues).length)
          (acc ++ (server startAt).issues) (reqs + 1)
    else some (acc, reqs)

/-- Fuelled counterpart of `get_tasks_in_release`. -/
def get_tasks_in_releaseFuel (server : Nat → Page) (fuel : Nat) :
    Option (List Issue × Nat) :=
  if ((server 0).issues).isEmpty then some ([], 1)
  else if ((server 0).issues).length < 100 then some ((server 0).issues, 1)
  else
    fetchPagesFuel server 100 fuel (server 0).total
      ((server 0).issues).length ((server 0).issues) 1

/-- One-step unfolding of `fetchPages`. -/
theorem fetchPages_eq (server : Nat → Page)
    (maxResults total startAt : Nat) (acc : List Issue) (reqs : Nat) :
    fetchPages server maxResults total startAt acc reqs =
      if startAt < total then
        if ((server startAt).issues).isEmpty then (acc, reqs + 1)
        else if ((server startAt).issues).length < maxResults then
          (acc ++ (server startAt).issues, reqs + 1)
        else
          fetchPages server maxResults total
            (startAt + ((server startAt).issues).length)
            (acc ++ (server startAt).issues) (reqs + 1)
      else (acc, reqs) := by
  rw [fetchPages]
  by_cases h0 : startAt < total
  · rw [dif_pos h0, if_pos h0]
    by_cases he : ((server startAt).issues).isEmpty
    · rw [dif_pos he, if_pos he]
    · rw [dif_neg he, if_neg he]
  · rw [dif_neg h0, if_neg h0]

/-- One-step unfolding of `fetchPagesFuel` on positive fuel. -/
theorem fetchPagesFuel_succ (server : Nat → Page)
    (maxResults fuel total startAt : Nat) (acc : List Issue) (reqs : Nat) :
    fetchPagesFuel server maxResults (fuel + 1) total startAt acc reqs =
      if startAt < total then
        if ((server startAt).issues).isEmpty then some (acc, reqs + 1)
        else if ((server startAt).issues).length < maxResults then
          some (acc ++ (server startAt).issues, reqs + 1)
        else
          fetchPagesFuel server maxResults fuel total
            (startAt + ((server startAt).issues).length)
            (acc ++ (server startAt).issues) (reqs + 1)
      else some (acc, reqs) := rfl

/-- Fuel `n + 1` suffices whenever `total - startAt ≤ n`: the loop
offset strictly increases on every continued iteration. -/
theorem fetchPagesFuel_sufficient (server : Nat → Page) (maxResults : Nat) :
    ∀ (n total startAt : Nat) (acc : List Issue) (reqs : Nat),
      total - startAt ≤ n →
      fetchPagesFuel server maxResults (n + 1) total startAt acc reqs =
        some (fetchPages server maxResults total startAt acc reqs) := by
  intro n
  induction n with
  | zero =>
    intro total startAt acc reqs hle
    have hge : ¬ startAt < total := by omega
    rw [fetchPagesFuel_succ, fetchPages_eq, if_neg hge, if_neg hge]
  | succ n ih =>
    intro total startAt acc reqs hle
    rw [fetchPagesFuel_succ, fetchPages_eq]
    by_cases h0 : startAt < total
    · rw [if_pos h0, if_pos h0]
      by_cases he : ((server startAt).issues).isEmpty
      · rw [if_pos he, if_pos he]
      · rw [if_neg he, if_neg he]
        by_cases hs : ((server startAt).issues).length < maxResults
        · rw [if_pos hs, if_pos hs]
        · rw [if_neg hs, if_neg hs]
          have hpos : 0 < ((server startAt).issues).length := by
            cases hl : (server startAt).issues with
            | nil => rw [hl] at he; simp at he
            | cons x xs => simp
          exact ih total (startAt + ((server startAt).issues).length)
            (acc ++ (server startAt).issues) (reqs + 1) (by omega)
    · rw [if_neg h0, if_neg h0]

/-- C4: the pagination loop of `get_tasks_in_release` terminates for
every server response sequence in which a short page (fewer than 100
issues, including an empty page) is eventually returned — in
particular also when the reported total exceeds the actual number of
tickets: some finite fuel makes the fuelled loop stop, with the value
computed by `get_tasks_in_release`.  (The proof in fact never uses the
short-page hypothesis: the offset grows every iteration while the
reported total is fixed after the first response, so the loop
terminates for every server.) -/
theorem pagination_terminates (server : Nat → Page)
    (h : ∃ s : Nat, ((server s).issues).length < 100) :
    ∃ fuel r, get_tasks_in_releaseFuel server fuel = some r ∧
      get_tasks_in_release server = r := by
  clear h
  refine ⟨(server 0).total + 1, get_tasks_in_release server, ?_, rfl⟩
  rw [get_tasks_in_releaseFuel, get_tasks_in_release]
  by_cases he : ((server 0).issues).isEmpty
  · rw [if_pos he, if_pos he]
  · rw [if_neg he, if_neg he]
    by_cases hs : ((server 0).issues).length < 100
    · rw [if_pos hs, if_pos hs]
    · rw [if_neg hs, if_neg hs]
      exact fetchPagesFuel_sufficient server 100 (server 0).total
        (server 0).total ((server 0).issues).length ((server 0).issues) 1
        (by omega)

/-- A server whose pages all hold three issues while reporting a total
of 1000: the short page is returned at once, the reported total is far
larger than the number of issues ever returned. -/
def serverShortPage : Nat → Page :=
  fun _ => { issues := [⟨"AAA-1"⟩, ⟨"AAA-2"⟩, ⟨"AAA-3"⟩], total := 1000 }

theorem pagination_terminates_witness :
    ∃ fuel r, get_tasks_in_releaseFuel serverShortPage fuel = some r ∧
      get_tasks_in_release serverShortPage = r :=
  pagination_terminates serverShortPage ⟨0, by decide⟩

/-! ## Deduplication behaviour of the fetch (claim C5)

The Python loop only concatenates the received pages
(`all_issues.extend(issues)`); it never deduplicates.  A server that
repeats a ticket key therefore yields a repeated key in the returned
list, refuting the universal uniqueness claim; uniqueness does hold
when the pages of the server never repeat a key. -/

/-- A server whose single (short) page holds the same ticket twice. -/
def serverDup : Nat → Page :=
  fun _ => { issues := [{ key := "ABC-1" }, { key := "ABC-1" }], total := 2 }

/-- C5 counterexample: on a server repeating an issue inside its page
sequence, the ticket keys of the retrieved list are not unique:
`get_tasks_in_release` returns the key `ABC-1` twice. -/
theorem tasks_keys_not_unique_on_dup :
    ¬ (((get_tasks_in_release serverDup).1.map Issue.key).Nodup) := by
  decide

/-- The ticket keys of the page the server returns at offset `s`. -/
def pageKeys (server : Nat → Page) (s : Nat) : List String :=
  (server s).issues.map Issue.key

/-- Key uniqueness of the loop result when no key ever repeats:
within each page, across the accumulator, and across pages. -/
theorem fetchPages_keys_nodup (server : Nat → Page) (maxResults : Nat)
    (h1 : ∀ s, (pageKeys server s).Nodup)
    (h2 : ∀ s t, s ≠ t → ∀ k, k ∈ pageKeys server s → k ∉ pageKeys server t) :
    ∀ (n total startAt : Nat) (acc : List Issue) (reqs : Nat),
      total - startAt ≤ n →
      ((acc.map Issue.key).Nodup) →
      (∀ s, startAt ≤ s → ∀ k, k ∈ pageKeys server s → k ∉ acc.map Issue.key) →
      (((fetchPages server maxResults total startAt acc reqs).1.map
          Issue.key).Nodup) := by
  intro n
  induction n with
  | zero =>
    intro total startAt acc reqs hle hacc hdisj
    have hge : ¬ startAt < total := by omega
    rw [fetchPages_eq, if_neg hge]
    exact hacc
  | succ n ih =>
    intro total startAt acc reqs hle hacc hdisj
    rw [fetchPages_eq]
    by_cases h0 : startAt < total
    · rw [if_pos h0]
      have happ : (((acc ++ (server startAt).issues).map Issue.key).Nodup) := by
        rw [List.map_append, List.nodup_append]
        refine ⟨hacc, h1 startAt, ?_⟩
        intro k hk hk'
        exact hdisj startAt (Nat.le_refl _) k hk' hk
      by_cases he : ((server startAt).issues).isEmpty
      · rw [if_pos he]
        exact hacc
      · rw [if_neg he]
        by_cases hs : ((server startAt).issues).length < maxResults
        · rw [if_pos hs]
          exact happ
        · rw [if_neg hs]
          have hpos : 0 < ((server startAt).issues).length := by
            cases hl : (server startAt).issues with
            | nil => rw [hl] at he; simp at he
            | cons x xs => simp
          refine ih total (startAt + ((server startAt).issues).length)
            (acc ++ (server startAt).issues) (reqs + 1) (by omega) happ ?_
          intro s hsge k hk
          rw [List.map_append, List.mem_append]
          rintro (hmem | hmem)
          · exact hdisj s (by omega) k hk hmem
          · exact h2 s startAt (by omega) k hk hmem
    · rw [if_neg h0]
      exact hacc

/-- C5 amended: the retrieved list is the concatenation of the pages
received, with no deduplication by the code; its ticket keys are
unique provided the server never repeats a key — no duplicate inside a
page and no key shared between two pages. -/
theorem tasks_keys_unique_of_no_repeats (server : Nat → Page)
    (h1 : ∀ s, (pageKeys server s).Nodup)
    (h2 : ∀ s t, s ≠ t → ∀ k, k ∈ pageKeys server s → k ∉ pageKeys server t) :
    (((get_tasks_in_release server).1).map Issue.key).Nodup := by
  rw [get_tasks_in_release]
  by_cases he : ((server 0).issues).isEmpty
  · rw [if_pos he]
    simp
  · rw [if_neg he]
    by_cases hs : ((server 0).issues).length < 100
    · rw [if_pos hs]
      exact h1 0
    · rw [if_neg hs]
      refine fetchPages_keys_nodup server 100 h1 h2 (server 0).total
        (server 0).total ((server 0).issues).length ((server 0).issues) 1
        (by omega) (h1 0) ?_
      intro s hsge k hk hmem
      have hlen : 100 ≤ ((server 0).issues).length := by omega
      have hs0 : s ≠ 0 := by omega
      exact h2 s 0 hs0 k hk hmem

/-- A server returning one single-issue page at offset 0 and nothing
elsewhere: its pages never repeat a key. -/
def serverOnePage : Nat → Page :=
  fun s =>
    if s = 0 then { issues := [{ key := "XYZ-7" }], total := 1 }
    else { issues := [], total := 1 }

theorem tasks_keys_unique_witness :
    (((get_tasks_in_release serverOnePage).1).map Issue.key).Nodup := by
  refine tasks_keys_unique_of_no_repeats serverOnePage ?_ ?_
  · intro s
    by_cases h : s = 0 <;> simp [pageKeys, serverOnePage, h]
  · intro s t hst k hk hk'
    by_cases h : s = 0
    · have ht : t ≠ 0 := by omega
      simp [pageKeys, serverOnePage, ht] at hk'
    · simp [pageKeys, serverOnePage, h] at hk

/-! ## Concrete pagination runs (claims C7 and C10) -/

/-- A server presenting pages of sizes 100, 100 and 37 with the
consistent reported total 237. -/
def server237 : Nat → Page :=
  fun s =>
    if s = 0 then { issues := List.replicate 100 { key := "T" }, total := 237 }
    else if s = 100 then
      { issues := List.replicate 100 { key := "T" }, total := 237 }
    else if s = 200 then
      { issues := List.replicate 37 { key := "T" }, total := 237 }
    else { issues := [], total := 237 }

/-- C7: on pages of sizes [100, 100, 37] with reported total 237,
`get_tasks_in_release` returns exactly 237 tickets after exactly 3
search requests. -/
theorem pagination_100_100_37 :
    (get_tasks_in_release server237).1.length = 237 ∧
      (get_tasks_in_release server237).2 = 3 := by
  have h0 : server237 0 =
      { issues := List.replicate 100 { key := "T" }, total := 237 } := rfl
  have h100 : server237 100 =
      { issues := List.replicate 100 { key := "T" }, total := 237 } := rfl
  have h200 : server237 200 =
      { issues := List.replicate 37 { key := "T" }, total := 237 } := rfl
  rw [get_tasks_in_release, h0]
  norm_num
  rw [fetchPages_eq, h100]
  norm_num
  rw [fetchPages_eq, h200]
  norm_num

/-- C10: whenever the accumulated issue count — the next start offset,
since every page is kept whole — has reached the server-reported
total, the loop makes no further search request and returns the
accumulator unchanged; this is the state reached after a full page
(exactly 100 issues) at any iteration brings the count to at least the
total, even if more issues actually exist.  In particular a full first
page reaching a reported total of at most 100 is returned whole after
exactly one request, and whenever that total is below 100 the returned
list is strictly longer than the reported total. -/
theorem full_page_reaching_total_stops (server : Nat → Page) :
    (∀ (maxResults total startAt : Nat) (acc : List Issue) (reqs : Nat),
      total ≤ startAt →
      fetchPages server maxResults total startAt acc reqs = (acc, reqs)) ∧
    (((server 0).issues).length = 100 → (server 0).total ≤ 100 →
      get_tasks_in_release server = ((server 0).issues, 1) ∧
      ((server 0).total < 100 →
        (server 0).total < ((get_tasks_in_release server).1).length)) := by
  have hstop : ∀ (maxResults total startAt : Nat) (acc : List Issue)
      (reqs : Nat), total ≤ startAt →
      fetchPages server maxResults total startAt acc reqs = (acc, reqs) := by
    intro maxResults total startAt acc reqs hle
    rw [fetchPages_eq, if_neg (by omega : ¬ startAt < total)]
  refine ⟨hstop, ?_⟩
  intro hfull htot
  have hres : get_tasks_in_release server = ((server 0).issues, 1) := by
    rw [get_tasks_in_release]
    have he : ¬ ((server 0).issues).isEmpty := by
      cases hl : (server 0).issues with
      | nil => rw [hl] at hfull; simp at hfull
      | cons x xs => simp
    rw [if_neg he]
    have hs : ¬ ((server 0).issues).length < 100 := by omega
    rw [if_neg hs, hfull]
    exact hstop 100 (server 0).total 100 ((server 0).issues) 1 htot
  refine ⟨hres, ?_⟩
  intro hlt
  rw [hres]
  simpa [hfull] using hlt

/-- A server whose first page is full (100 issues) although the
reported total is only 50: more issues exist at offset 100, but the
fetch stops after one request. -/
def serverOverfull : Nat → Page :=
  fun _ => { issues := List.replicate 100 { key := "Q" }, total := 50 }

/-- A server presenting two full pages with the consistent reported
total 150: the second full page brings the accumulated count to 200,
at least the total, so no third request happens. -/
def serverMid : Nat → Page :=
  fun s =>
    if s = 0 then { issues := List.replicate 100 { key := "M" }, total := 150 }
    else if s = 100 then
      { issues := List.replicate 100 { key := "M" }, total := 150 }
    else { issues := List.replicate 100 { key := "M" }, total := 150 }

theorem full_page_reaching_total_stops_witness :
    (get_tasks_in_release serverMid =
        (List.replicate 100 { key := "M" } ++ List.replicate 100 { key := "M" },
          2)) ∧
    get_tasks_in_release serverOverfull =
        (List.replicate 100 { key := "Q" }, 1) ∧
      (50 : Nat) < ((get_tasks_in_release serverOverfull).1).length := by
  refine ⟨?_, ?_⟩
  · have h0 : serverMid 0 =
        { issues := List.replicate 100 { key := "M" }, total := 150 } := rfl
    have h100 : serverMid 100 =
        { issues := List.replicate 100 { key := "M" }, total := 150 } := rfl
    rw [get_tasks_in_release, h0]
    norm_num
    rw [fetchPages_eq, h100]
    norm_num
    exact (full_page_reaching_total_stops serverMid).1 100 150 200
      (List.replicate 100 { key := "M" } ++ List.replicate 100 { key := "M" })
      2 (by norm_num)
  · have h := (full_page_reaching_total_stops serverOverfull).2
      (by simp [serverOverfull]) (by simp [serverOverfull])
    refine ⟨h.1, ?_⟩
    exact h.2 (by simp [serverOverfull])

/-! ## Release lookup failure (claim C9)

`get_tasks_in_release` first calls `get_release_info` (exactly one
lookup request), reads the `name` field, and aborts the run before any
search request when the name is missing or empty (`if not
release_name`).  The fatal abort (`sys.exit(1)` after the report) is
modelled as the `lookupError` outcome; the result carries the number
of lookup calls and the number of search calls performed. -/

/-- The failure taxonomy entry for an unresolvable release. -/
inductive FetchError where
  | lookupError
deriving DecidableEq, Repr

/-- The full fetch step: the resolved release name (the `name` field
of the version lookup response, `none` when absent) plus the search
server.  Returns the outcome together with (lookup calls, search
calls). -/
def get_tasks_in_release_run (release_name : Option String)
    (server : Nat → Page) : Except FetchError (List Issue) × Nat × Nat :=
  match release_name with
  | none => (Except.error FetchError.lookupError, 1, 0)
  | some name =>
    if name = "" then (Except.error FetchError.lookupError, 1, 0)
    else
      (Except.ok (get_tasks_in_release server).1, 1,
        (get_tasks_in_release server).2)

/-- C9: when the release identifier does not resolve to a (non-empty)
release name, the run fails with the lookup error after exactly one
release-lookup call and zero search calls. -/
theorem lookup_failure_aborts (release_name : Option String)
    (server : Nat → Page)
    (h : release_name = none ∨ release_name = some "") :
    get_tasks_in_release_run release_name server =
      (Except.error FetchError.lookupError, 1, 0) := by
  rcases h with h | h <;> rw [h] <;> simp [get_tasks_in_release_run]

theorem lookup_failure_aborts_witness :
    get_tasks_in_release_run none serverOnePage =
      (Except.error FetchError.lookupError, 1, 0) :=
  lookup_failure_aborts none serverOnePage (Or.inl rfl)

/-! ## The generated cherry-pick script (claim C8)

`generate_cherry_pick_script` builds the script as a list of lines: a
fixed header (shebang, comments, `set -e`, `git checkout`), one block
of three lines per ordered association, and a closing success echo.
The generation timestamp is passed in as `generated_on`; the file
write and chmod are outside the pure core. -/

/-- The newline separator used by the message split. -/
def nlStr : String := "\n"

/-- The first line of a message: Python splits the message on the
newline character and takes element 0. -/
def firstLine (s : String) : String :=
  (s.splitOn nlStr).headI

/-- The line list of the generated script, mirroring the Python
`script_content` construction. -/
def generate_cherry_pick_script_lines (release_id generated_on
    target_branch : String) (ordered_commits : List Association) :
    List String :=
  let script_content : List String :=
    ["#!/bin/bash",
     "",
     "# Cherry-pick script for JIRA release " ++ release_id,
     "# Generated on " ++ generated_on,
     "",
     "# Exit on error",
     "set -e",
     "",
     "# Checkout the target branch",
     "git checkout " ++ target_branch,
     "",
     "# Cherry-pick each commit",
     ""]
  let script_content := ordered_commits.foldl
    (fun acc commit =>
      acc ++ ["# " ++ commit.ticket_key ++ ": " ++ firstLine commit.commit_message,
              "git cherry-pick --strategy=recursive -X theirs " ++ commit.commit_hash,
              ""])
    script_content
  script_content ++ ["echo \x27Cherry-picking completed successfully!\x27"]

/-- The three lines emitted for one association: a comment naming the
ticket key and the first line of the commit message, then the
conflict-tolerant replay command (a cherry-pick whose recursive merge
strategy takes the incoming commit side on conflicts), then a blank. -/
def pickBlock (a : Association) : List String :=
  ["# " ++ a.ticket_key ++ ": " ++ firstLine a.commit_message,
   "git cherry-pick --strategy=recursive -X theirs " ++ a.commit_hash,
   ""]

/-- The closing success-indicator line of the script. -/
def successLine : String :=
  "echo \x27Cherry-picking completed successfully!\x27"

/-- Folding appends of per-element blocks over a list concatenates the
blocks in list order after the initial accumulator. -/
theorem foldl_append_eq_flatMap (f : Association → List String) :
    ∀ (l : List Association) (init : List String),
      l.foldl (fun acc c => acc ++ f c) init = init ++ l.flatMap f := by
  intro l
  induction l with
  | nil => intro init; simp
  | cons a l ih =>
    intro init
    simp only [List.foldl_cons, List.flatMap_cons, ih, List.append_assoc]

/-- A nonempty head survives an append on the right. -/
theorem data_head_append (s t : String) (c : Char)
    (h : s.data.head? = some c) : ((s ++ t).data).head? = some c := by
  rw [String.data_append]
  cases hd : s.data with
  | nil => rw [hd] at h; simp at h
  | cons x xs =>
    rw [hd] at h
    simp only [List.head?_cons, Option.some.injEq] at h
    simp [h]

/-- C8: the generated script is an abort-on-any-failure directive
(`set -e`) preceded and followed only by comments and blank lines,
then the checkout of the target branch, then (after comment/blank
lines) one three-line replay block per ordered association in sequence
order — a comment carrying the ticket key and the first message line,
then the conflict-tolerant cherry-pick of the commit hash — and a
final success-indicator line. -/
theorem cherry_pick_script_structure (release_id generated_on
    target_branch : String) (ordered_commits : List Association) :
    ∃ A B D : List String,
      generate_cherry_pick_script_lines release_id generated_on
          target_branch ordered_commits =
        A ++ (["set -e"] ++ (B ++ (["git checkout " ++ target_branch] ++
          (D ++ (ordered_commits.flatMap pickBlock ++ [successLine]))))) ∧
      (∀ l ∈ A ++ B ++ D, l = "" ∨ l.data.head? = some '#') := by
  refine ⟨["#!/bin/bash", "",
      "# Cherry-pick script for JIRA release " ++ release_id,
      "# Generated on " ++ generated_on, "", "# Exit on error"],
    ["", "# Checkout the target branch"],
    ["", "# Cherry-pick each commit", ""], ?_, ?_⟩
  · show (List.foldl _ _ ordered_commits) ++ [successLine] = _
    have hfun : (fun (acc : List String) (commit : Association) =>
        acc ++ ["# " ++ commit.ticket_key ++ ": " ++ firstLine commit.commit_message,
                "git cherry-pick --strategy=recursive -X theirs " ++ commit.commit_hash,
                ""]) = fun acc c => acc ++ pickBlock c := by
      funext acc c
      rw [pickBlock]
    rw [hfun, foldl_append_eq_flatMap]
    simp [successLine, List.append_assoc]
  · intro l hl
    simp only [List.append_assoc, List.cons_append, List.nil_append,
      List.mem_cons, List.not_mem_nil, or_false] at hl
    rcases hl with h | h | h | h | h | h | h | h | h | h | h
    all_goals first
      | (left; exact h)
      | (right; rw [h]; exact data_head_append _ _ _ (by decide))
      | (right; rw [h]; decide)
